import Mathlib

/-!
Verification development for the PPER-Data-Team repository.

This file shallowly embeds the parts of the repository that the claims
concern:

* `src/text_extractor.py` — `PDFTextExtractor.extract_text_from_pdf_url`
  and `extract_text_from_pdf` (the HTTP request and the PDF parse are
  modelled as oracle values describing the outcome of the external call);
* `src/concurrent_downloader.py` — the work partitioner
  (`run_concurrent_downloading_main`, lines 256-259), the worker task
  (`process_docket_chunk`), the API-key queue discipline, and the merge
  engine (`merge_databases`).

Python machine-level details (sqlite connections, the regex rewrite of
CREATE TABLE text, logging) are modelled at the level of their effect on
the data: a temporary database is a list of named tables of rows, a row
carries its primary-key value, INSERT OR IGNORE inserts exactly when no
row with the same key exists.
-/

set_option maxHeartbeats 1000000

namespace PPER

/-! ### Embedding of src/text_extractor.py -/

/-- Outcome of `requests.get(pdf_url, ...)`: either a response with a
status code and a body, or a raised exception. -/
inductive HttpResult where
  | success (status : Nat) (content : String)
  | failure (msg : String)
deriving DecidableEq

/-- Outcome of opening the PDF with pymupdf and reading every page's
text: either the list of per-page texts, or a raised exception. -/
inductive PdfParse where
  | pages (texts : List String)
  | failure (msg : String)
deriving DecidableEq

def HttpResult.isFailure : HttpResult → Bool
  | .failure _ => true
  | .success _ _ => false

def HttpResult.statusOf : HttpResult → Option Nat
  | .failure _ => none
  | .success s _ => some s

def PdfParse.isFailure : PdfParse → Bool
  | .failure _ => true
  | .pages _ => false

/-- `PDFTextExtractor.extract_text_from_pdf` (src/text_extractor.py,
lines 42-54): join the page texts with a newline; if the joined text is
empty return the placeholder, otherwise return the stripped text; if the
parse raised, return `None`.  Python's `str.strip` is modelled by
`String.trim`. -/
def extract_text_from_pdf (doc : PdfParse) : Option String :=
  match doc with
  | .failure _ => none
  | .pages texts =>
    let text := String.intercalate "\n" texts
    if text == "" then some "No text found" else some text.trim

/-- `PDFTextExtractor.extract_text_from_pdf_url` (src/text_extractor.py,
lines 56-68): on HTTP 200 hand the body to `extract_text_from_pdf`; on
any other status, or when the request raised, return `None`. -/
def extract_text_from_pdf_url (resp : HttpResult) (doc : PdfParse) : Option String :=
  match resp with
  | .failure _ => none
  | .success status _content =>
    if status == 200 then extract_text_from_pdf doc else none

/-! ### Embedding of the work partitioner
(src/concurrent_downloader.py, lines 256-259) -/

/-- `list(dict.fromkeys(all_docket_ids))`: drop duplicates, keeping the
first occurrence of each id, preserving order.  `seen` is the set of keys
already emitted. -/
def dedupAux : List String → List String → List String
  | [], _ => []
  | x :: xs, seen =>
    if x ∈ seen then dedupAux xs seen else x :: dedupAux xs (x :: seen)

def dedupKeepFirst (l : List String) : List String :=
  dedupAux l []

/-- One chunk per iteration of `range(0, num_total_dockets, chunk_size)`;
the fuel argument bounds the number of iterations by the list length,
which suffices for any positive step. -/
def chunksGo (size : Nat) : Nat → List String → List (List String)
  | _, [] => []
  | 0, _ :: _ => []
  | fuel + 1, x :: xs => ((x :: xs).take size) :: chunksGo size fuel ((x :: xs).drop size)

/-- `[all_docket_ids[i:i + chunk_size] for i in range(0, n, chunk_size)]`
(src/concurrent_downloader.py, line 259).  A zero step would raise
`ValueError` in Python; the model returns no chunks in that case (the
configured value is 1). -/
def docketChunks (l : List String) (size : Nat) : List (List String) :=
  if size = 0 then [] else chunksGo size l.length l

/-- The partitioner as run by `run_concurrent_downloading_main`:
deduplicate, then slice into chunks of at most `size` dockets. -/
def partitionDockets (allDocketIds : List String) (size : Nat) : List (List String) :=
  docketChunks (dedupKeepFirst allDocketIds) size

/-- `DOCKETS_PER_TASK_CHUNK` (src/concurrent_downloader.py, line 47). -/
def DOCKETS_PER_TASK_CHUNK : Nat := 1

/-- `MAX_CONCURRENT_WORKERS` (src/concurrent_downloader.py, line 45). -/
def MAX_CONCURRENT_WORKERS : Nat := 200

theorem mem_dedupAux (x : String) :
    ∀ (l seen : List String), x ∈ dedupAux l seen ↔ x ∈ l ∧ x ∉ seen := by
  intro l
  induction l with
  | nil => intro seen; simp [dedupAux]
  | cons a xs ih =>
    intro seen
    by_cases ha : a ∈ seen
    · rw [dedupAux, if_pos ha, ih]
      constructor
      · rintro ⟨h1, h2⟩
        exact ⟨List.mem_cons_of_mem a h1, h2⟩
      · rintro ⟨h1, h2⟩
        rcases List.mem_cons.mp h1 with rfl | h1
        · exact absurd ha h2
        · exact ⟨h1, h2⟩
    · rw [dedupAux, if_neg ha]
      constructor
      · intro hx
        rcases List.mem_cons.mp hx with rfl | hx
        · exact ⟨List.mem_cons_self x xs, ha⟩
        · have h3 := (ih (a :: seen)).mp hx

          exact ⟨List.mem_cons_of_mem a h3.1,
            fun hc => h3.2 (List.mem_cons_of_mem a hc)⟩
      · rintro ⟨h1, h2⟩
        rcases List.mem_cons.mp h1 with rfl | h1
        · exact List.mem_cons_self x _
        · by_cases hxa : x = a
          · subst hxa; exact List.mem_cons_self x _
          · refine List.mem_cons_of_mem a ((ih (a :: seen)).mpr ⟨h1, fun hc => ?_⟩)
            rcases List.mem_cons.mp hc with h | h
            · exact hxa h
            · exact h2 h

theorem mem_dedupKeepFirst (x : String) (l : List String) :
    x ∈ dedupKeepFirst l ↔ x ∈ l := by
  simp [dedupKeepFirst, mem_dedupAux]

theorem nodup_dedupAux : ∀ (l seen : List String), (dedupAux l seen).Nodup := by
  intro l
  induction l with
  | nil => intro seen; simp [dedupAux]
  | cons a xs ih =>
    intro seen
    by_cases ha : a ∈ seen
    · simp only [dedupAux, if_pos ha]
      exact ih seen
    · simp only [dedupAux, if_neg ha, List.nodup_cons]
      refine ⟨fun hc => ?_, ih (a :: seen)⟩
      exact ((mem_dedupAux a xs (a :: seen)).mp hc).2 (List.mem_cons_self _ _)

theorem nodup_dedupKeepFirst (l : List String) : (dedupKeepFirst l).Nodup :=
  nodup_dedupAux l []

theorem chunksGo_flatten (size : Nat) (hs : 0 < size) :
    ∀ (fuel : Nat) (l : List String), l.length ≤ fuel → (chunksGo size fuel l).flatten = l := by
  intro fuel
  induction fuel with
  | zero =>
    intro l hl
    have h0 : l = [] := List.eq_nil_of_length_eq_zero (Nat.le_zero.mp hl)
    subst h0
    simp [chunksGo]
  | succ n ih =>
    intro l hl
    match l with
    | [] => simp [chunksGo]
    | x :: xs =>
      have hdrop : ((x :: xs).drop size).length ≤ n := by
        simp only [List.length_drop, List.length_cons] at *
        omega
      simp only [chunksGo, List.flatten_cons]
      rw [ih _ hdrop]
      exact List.take_append_drop size (x :: xs)

theorem chunksGo_size_le (size : Nat) :
    ∀ (fuel : Nat) (l : List String) (c : List String),
      c ∈ chunksGo size fuel l → c.length ≤ size := by
  intro fuel
  induction fuel with
  | zero =>
    intro l c hc
    match l with
    | [] => simp [chunksGo] at hc
  | succ n ih =>
    intro l c hc
    match l with
    | [] => simp [chunksGo] at hc
    | x :: xs =>
      simp only [chunksGo, List.mem_cons] at hc
      rcases hc with rfl | hc
      · simp
      · exact ih _ _ hc

theorem docketChunks_flatten (l : List String) (size : Nat) (hs : 0 < size) :
    (docketChunks l size).flatten = l := by
  unfold docketChunks
  rw [if_neg (Nat.pos_iff_ne_zero.mp hs)]
  exact chunksGo_flatten size hs l.length l (le_refl _)

theorem docketChunks_size_le (l : List String) (size : Nat) (c : List String)
    (hc : c ∈ docketChunks l size) : c.length ≤ size := by
  unfold docketChunks at hc
  by_cases h : size = 0
  · rw [if_pos h] at hc; simp at hc
  · rw [if_neg h] at hc
    exact chunksGo_size_le size l.length l c hc

/-! ### Embedding of the worker task
(`process_docket_chunk`, src/concurrent_downloader.py, lines 175-225)

The external call `downloader.gather_comments_by_docket(docket_id, ...)`
is modelled by an oracle `fetch`: on `ok` it has written the worker's
temporary database file (so the file now exists); on `err` it raised an
exception, which the per-docket handler catches, and in the worst case
the file was not touched.  `ctorOk` models whether
`CommentsDownloader(api_key=...)` succeeded; an exception there is the
only statement outside the per-docket handlers, so it is the only way to
reach the outer handler that returns `None`. -/

/-- Outcome of one `gather_comments_by_docket` call. -/
inductive FetchOutcome where
  | ok
  | err (msg : String)
deriving DecidableEq

def FetchOutcome.isOk : FetchOutcome → Bool
  | .ok => true
  | .err _ => false

/-- The environment a worker task runs against. -/
structure WorkerEnv where
  ctorOk : Bool
  fetch : String → FetchOutcome

/-- Worker-visible state while looping over the chunk: the shared
lock-protected counter `total_dockets_processed`, the per-docket
success/failure log, and whether the temporary database file exists. -/
structure WorkerState where
  counter : Nat
  succeeded : List String
  failed : List String
  storeCreated : Bool
deriving DecidableEq

/-- The body of `for docket_id in docket_chunk` (lines 193-216): fetch,
then increment the counter under the lock, on both the success path and
the exception path; the exception handler continues the loop. -/
def processUnit (env : WorkerEnv) (s : WorkerState) (docketId : String) : WorkerState :=
  match env.fetch docketId with
  | .ok =>
    { counter := s.counter + 1, succeeded := s.succeeded ++ [docketId],
      failed := s.failed, storeCreated := true }
  | .err _ =>
    { counter := s.counter + 1, succeeded := s.succeeded,
      failed := s.failed ++ [docketId], storeCreated := s.storeCreated }

/-- Result of one worker task: the returned value (`some` path or
`none`) together with the final shared-counter value and the per-docket
log. -/
structure WorkerOutcome where
  result : Option String
  counter : Nat
  succeeded : List String
  failed : List String
  storeCreated : Bool
deriving DecidableEq

/-- `process_docket_chunk` (lines 175-225).  When the downloader
constructor succeeds the loop runs over every docket of the chunk and
the task returns `temp_db_filename`; when it raises, the outer handler
returns `None`.  The `finally` release of the API key is modelled by the
pool transition system below. -/
def process_docket_chunk (env : WorkerEnv) (chunk : List String) (counter0 : Nat)
    (tempDbFilename : String) : WorkerOutcome :=
  if env.ctorOk then
    let s := chunk.foldl (processUnit env)
      { counter := counter0, succeeded := [], failed := [], storeCreated := false }
    { result := some tempDbFilename, counter := s.counter,
      succeeded := s.succeeded, failed := s.failed, storeCreated := s.storeCreated }
  else
    { result := none, counter := counter0, succeeded := [], failed := [],
      storeCreated := false }

/-- One spawned task: its environment, its chunk, its db filename. -/
structure WorkerJob where
  env : WorkerEnv
  chunk : List String
  dbFilename : String

/-- Net effect of all tasks on the shared counter: each increment runs
under `counter_lock`, so every interleaving of the atomic increments has
the same total effect as running the tasks in sequence. -/
def runChunksCounter (jobs : List WorkerJob) (counter0 : Nat) : Nat :=
  jobs.foldl (fun c j => (process_docket_chunk j.env j.chunk c j.dbFilename).counter) counter0

theorem foldl_processUnit_state (env : WorkerEnv) :
    ∀ (chunk : List String) (s : WorkerState),
      (chunk.foldl (processUnit env) s).counter = s.counter + chunk.length ∧
      (chunk.foldl (processUnit env) s).succeeded
        = s.succeeded ++ chunk.filter (fun d => (env.fetch d).isOk) ∧
      (chunk.foldl (processUnit env) s).failed
        = s.failed ++ chunk.filter (fun d => !(env.fetch d).isOk) := by
  intro chunk
  induction chunk with
  | nil => intro s; simp
  | cons d rest ih =>
    intro s
    rcases ih (processUnit env s d) with ⟨h1, h2, h3⟩
    refine ⟨?_, ?_, ?_⟩
    · rw [List.foldl_cons, h1]
      cases hf : env.fetch d <;> simp [processUnit, hf] <;> omega
    · rw [List.foldl_cons, h2]
      cases hf : env.fetch d <;>
        simp [processUnit, hf, FetchOutcome.isOk, List.filter_cons]
    · rw [List.foldl_cons, h3]
      cases hf : env.fetch d <;>
        simp [processUnit, hf, FetchOutcome.isOk, List.filter_cons]

theorem process_docket_chunk_counter (env : WorkerEnv) (chunk : List String)
    (counter0 : Nat) (fn : String) :
    (process_docket_chunk env chunk counter0 fn).counter
      = counter0 + (if env.ctorOk then chunk.length else 0) := by
  unfold process_docket_chunk
  by_cases h : env.ctorOk
  · simp only [if_pos h]
    exact (foldl_processUnit_state env chunk _).1
  · simp [h]

theorem runChunksCounter_sum :
    ∀ (jobs : List WorkerJob) (c0 : Nat),
      runChunksCounter jobs c0
        = c0 + (jobs.map (fun j => if j.env.ctorOk then j.chunk.length else 0)).sum := by
  intro jobs
  induction jobs with
  | nil => intro c0; simp [runChunksCounter]
  | cons j rest ih =>
    intro c0
    show runChunksCounter rest ((process_docket_chunk j.env j.chunk c0 j.dbFilename).counter) = _
    rw [ih, process_docket_chunk_counter]
    simp only [List.map_cons, List.sum_cons]
    omega

/-! ### Claim theorems for the partitioner, the worker and the extractor -/

/-- Claim C5: for every input list of docket ids (duplicates allowed, any
order) and every positive chunk size, the partitioner yields chunks whose
concatenation is exactly the deduplicated input (so their union is the
set of distinct ids), no id occurs in two chunks (the concatenation has
no duplicates), and every chunk has at most the configured size.  The
partitioner is a pure function of the input and the size, so the chunk
sequence is deterministic by construction. -/
theorem partition_correct (l : List String) (size : Nat) (hs : 0 < size) :
    (partitionDockets l size).flatten = dedupKeepFirst l ∧
    ((partitionDockets l size).flatten).Nodup ∧
    (dedupKeepFirst l).toFinset = l.toFinset ∧
    ∀ c ∈ partitionDockets l size, c.length ≤ size := by
  refine ⟨docketChunks_flatten _ size hs, ?_, ?_, fun c hc => docketChunks_size_le _ size c hc⟩
  · unfold partitionDockets
    rw [docketChunks_flatten _ size hs]
    exact nodup_dedupKeepFirst l
  · ext x
    simp [List.mem_toFinset, mem_dedupKeepFirst]

theorem partition_correct_witness :
    0 < 2 ∧
    ((partitionDockets ["D2", "D1", "D2", "D3"] 2).flatten
        = dedupKeepFirst ["D2", "D1", "D2", "D3"] ∧
      ((partitionDockets ["D2", "D1", "D2", "D3"] 2).flatten).Nodup ∧
      (dedupKeepFirst ["D2", "D1", "D2", "D3"]).toFinset
        = (["D2", "D1", "D2", "D3"] : List String).toFinset ∧
      ∀ c ∈ partitionDockets ["D2", "D1", "D2", "D3"] 2, c.length ≤ 2) :=
  ⟨by decide, partition_correct ["D2", "D1", "D2", "D3"] 2 (by decide)⟩

/-- Claim C6: when the downloader constructor succeeded, the worker's
per-docket exception handler makes the loop attempt every docket of the
chunk: the successes are exactly the dockets whose fetch succeeded, the
failures exactly those whose fetch raised, and every docket of the chunk
lands in one of the two lists — one docket's failure never aborts the
chunk. -/
theorem unit_failure_isolated (env : WorkerEnv) (chunk : List String) (c0 : Nat)
    (fn : String) (h : env.ctorOk = true) :
    (process_docket_chunk env chunk c0 fn).succeeded
        = chunk.filter (fun d => (env.fetch d).isOk) ∧
    (process_docket_chunk env chunk c0 fn).failed
        = chunk.filter (fun d => !(env.fetch d).isOk) ∧
    ∀ d ∈ chunk, d ∈ (process_docket_chunk env chunk c0 fn).succeeded ∨
      d ∈ (process_docket_chunk env chunk c0 fn).failed := by
  have hs := foldl_processUnit_state env chunk
    { counter := c0, succeeded := [], failed := [], storeCreated := false }
  have e1 : (process_docket_chunk env chunk c0 fn).succeeded
      = chunk.filter (fun d => (env.fetch d).isOk) := by
    unfold process_docket_chunk
    rw [if_pos h]
    simpa using hs.2.1
  have e2 : (process_docket_chunk env chunk c0 fn).failed
      = chunk.filter (fun d => !(env.fetch d).isOk) := by
    unfold process_docket_chunk
    rw [if_pos h]
    simpa using hs.2.2
  refine ⟨e1, e2, ?_⟩
  intro d hd
  by_cases hf : (env.fetch d).isOk = true
  · left
    rw [e1]
    simp [List.mem_filter, hd, hf]
  · right
    rw [e2]
    simp [List.mem_filter, hd, hf]

theorem unit_failure_isolated_witness :
    (WorkerEnv.mk true (fun d => if d == "D2" then FetchOutcome.err "boom" else FetchOutcome.ok)).ctorOk = true ∧
    (process_docket_chunk
        (WorkerEnv.mk true (fun d => if d == "D2" then FetchOutcome.err "boom" else FetchOutcome.ok))
        ["D1", "D2", "D3"] 0 "data/temp_dbs/temp_worker_comments_0.db").succeeded
      = ["D1", "D3"] ∧
    (process_docket_chunk
        (WorkerEnv.mk true (fun d => if d == "D2" then FetchOutcome.err "boom" else FetchOutcome.ok))
        ["D1", "D2", "D3"] 0 "data/temp_dbs/temp_worker_comments_0.db").failed
      = ["D2"] := by
  refine ⟨rfl, ?_, ?_⟩
  · rw [(unit_failure_isolated
      (WorkerEnv.mk true (fun d => if d == "D2" then FetchOutcome.err "boom" else FetchOutcome.ok))
      ["D1", "D2", "D3"] 0 "data/temp_dbs/temp_worker_comments_0.db" rfl).1]
    decide
  · rw [(unit_failure_isolated
      (WorkerEnv.mk true (fun d => if d == "D2" then FetchOutcome.err "boom" else FetchOutcome.ok))
      ["D1", "D2", "D3"] 0 "data/temp_dbs/temp_worker_comments_0.db" rfl).2.1]
    decide

/-- Claim C7: the shared lock-protected counter is incremented exactly
once per docket attempted, whether its fetch succeeds or fails: one
worker raises the counter by exactly its chunk length (or leaves it
unchanged when the downloader constructor failed and no docket was
attempted), and the net effect of all tasks — each increment being
atomic under `counter_lock`, so no update is lost in any interleaving —
is the total number of dockets attempted. -/
theorem counter_counts_every_unit (env : WorkerEnv) (chunk : List String) (c0 : Nat)
    (fn : String) (jobs : List WorkerJob) (c1 : Nat) :
    (process_docket_chunk env chunk c0 fn).counter
        = c0 + (if env.ctorOk then chunk.length else 0) ∧
    runChunksCounter jobs c1
        = c1 + (jobs.map (fun j => if j.env.ctorOk then j.chunk.length else 0)).sum :=
  ⟨process_docket_chunk_counter env chunk c0 fn, runChunksCounter_sum jobs c1⟩

/-- Claim C8 counterexample: a worker whose downloader constructor
succeeds but whose every fetch raises returns the temporary database
path as success even though the store file was never created — the code
returns `temp_db_filename` on every path that does not raise outside the
per-docket handlers, without checking that the file exists. -/
theorem worker_success_without_store :
    (process_docket_chunk (WorkerEnv.mk true (fun _ => FetchOutcome.err "api error"))
        ["D1"] 0 "data/temp_dbs/temp_worker_comments_0.db").result
      = some "data/temp_dbs/temp_worker_comments_0.db" ∧
    (process_docket_chunk (WorkerEnv.mk true (fun _ => FetchOutcome.err "api error"))
        ["D1"] 0 "data/temp_dbs/temp_worker_comments_0.db").storeCreated = false :=
  ⟨rfl, rfl⟩

/-- Claim C8 (amended): the worker returns the temporary database path
exactly when no error escaped the per-docket handlers (in the source,
exactly when the downloader constructor succeeded), and the failure
marker `None` exactly when such an error occurred — in which case no
store was created; but the returned path may name a store that was never
produced, and only the merge engine's existence/size check filters such
handles out. -/
theorem worker_result_iff_ctor (env : WorkerEnv) (chunk : List String) (c0 : Nat)
    (fn : String) :
    ((process_docket_chunk env chunk c0 fn).result = some fn ↔ env.ctorOk = true) ∧
    ((process_docket_chunk env chunk c0 fn).result = none ↔ env.ctorOk = false) ∧
    (env.ctorOk = false → (process_docket_chunk env chunk c0 fn).storeCreated = false) := by
  unfold process_docket_chunk
  by_cases h : env.ctorOk <;> simp [h]

theorem worker_result_iff_ctor_witness :
    (process_docket_chunk (WorkerEnv.mk false (fun _ => FetchOutcome.ok))
        ["D1"] 0 "t.db").result = none ↔
      (WorkerEnv.mk false (fun _ => FetchOutcome.ok)).ctorOk = false :=
  (worker_result_iff_ctor (WorkerEnv.mk false (fun _ => FetchOutcome.ok)) ["D1"] 0 "t.db").2.1

/-- Claim C10: `extract_text_from_pdf_url` never propagates an
exception: it returns `None` exactly when the HTTP request raised, the
status was not 200, or the PDF parse raised; otherwise it returns a
string — the joined page texts stripped, or the fixed placeholder when
they join to the empty string. -/
theorem extract_text_total (resp : HttpResult) (doc : PdfParse) :
    (extract_text_from_pdf_url resp doc = none
        ↔ (resp.isFailure = true ∨ resp.statusOf ≠ some 200 ∨ doc.isFailure = true)) ∧
    (∀ texts, doc = PdfParse.pages texts →
      extract_text_from_pdf doc
        = some (if String.intercalate "\n" texts == "" then "No text found"
                else (String.intercalate "\n" texts).trim)) := by
  constructor
  · cases resp with
    | failure m => simp [extract_text_from_pdf_url, HttpResult.isFailure]
    | success st c =>
      by_cases h200 : st = 200
      · subst h200
        cases doc with
        | failure m =>
          simp [extract_text_from_pdf_url, extract_text_from_pdf,
            HttpResult.isFailure, HttpResult.statusOf, PdfParse.isFailure]
        | pages texts =>
          simp only [extract_text_from_pdf_url, extract_text_from_pdf,
            HttpResult.isFailure, HttpResult.statusOf, PdfParse.isFailure]
          by_cases he : String.intercalate "\n" texts == "" <;> simp [he]
      · have hb : (st == 200) = false := by simp [h200]
        simp [extract_text_from_pdf_url, hb, HttpResult.isFailure, HttpResult.statusOf, h200]
  · rintro texts rfl
    by_cases he : String.intercalate "\n" texts = "" <;>
      simp [extract_text_from_pdf, he]

theorem extract_text_total_witness :
    extract_text_from_pdf_url (HttpResult.success 404 "nf") (PdfParse.pages ["hello"]) = none ↔
      ((HttpResult.success 404 "nf").isFailure = true ∨
        (HttpResult.success 404 "nf").statusOf ≠ some 200 ∨
        (PdfParse.pages ["hello"]).isFailure = true) :=
  (extract_text_total (HttpResult.success 404 "nf") (PdfParse.pages ["hello"])).1

/-! ### Embedding of the merge engine
(`merge_databases`, src/concurrent_downloader.py, lines 51-167)

A temporary database file is modelled by its path, whether the file
exists (`os.path.exists`), its size (`os.path.getsize`), and its tables.
A row carries its primary-key value and the remaining column values;
`INSERT OR IGNORE` inserts exactly when the final table holds no row
with the same key, which models sqlite's behaviour for the fixed schema
set, whose tables are keyed by a primary key.  Executing the rewritten
`CREATE TABLE IF NOT EXISTS` text is modelled as create-if-absent; an
insert into a table that was never created raises `sqlite3.Error`, which
the per-row handler swallows (the row is dropped). -/

/-- One sqlite row: primary-key value plus the other columns. -/
structure Row where
  key : String
  rest : List String
deriving DecidableEq

/-- One table inside a temporary database, with its stored
`CREATE TABLE` text (`sqlite_master.sql`). -/
structure TempTable where
  name : String
  schema : String
  rows : List Row
deriving DecidableEq

/-- One worker's temporary database file. -/
structure TempDB where
  path : String
  present : Bool
  size : Nat
  tables : List TempTable
deriving DecidableEq

/-- The guard `f and os.path.exists(f) and os.path.getsize(f) > 0`
(lines 58 and 110). -/
def isValidTemp (f : TempDB) : Bool :=
  !(f.path == "") && f.present && !(f.size == 0)

/-- sqlite's `lower(...)` / Python's `str.lower()` on ASCII table
names, modelled structurally over the string's characters. -/
def strLower (s : String) : String := String.mk (s.data.map Char.toLower)

/-- `SELECT ... FROM sqlite_master WHERE type='table' AND
lower(name)='<table_name.lower()>'` (lines 70-71 and 115-116). -/
def findTempTable (db : TempDB) (tableName : String) : Option TempTable :=
  db.tables.find? (fun t => strLower t.name == strLower tableName)

/-- The final (canonical) database: the tables that exist in it, in
creation order, each with its rows in insertion order. -/
abbrev FinalDB := List (String × List Row)

/-- Look a table up in the final database. -/
def getTable (db : FinalDB) (tableName : String) : Option (List Row) :=
  (db.find? (fun p => p.1 == tableName)).map (fun p => p.2)

/-- Executing the rewritten `CREATE TABLE IF NOT EXISTS` statement
(line 92): creates the table empty when absent, does nothing when
present. -/
def createIfAbsent (db : FinalDB) (tableName : String) : FinalDB :=
  match getTable db tableName with
  | some _ => db
  | none => db ++ [(tableName, [])]

/-- `INSERT OR IGNORE` at the row level: insert unless a row with the
same primary key is already there; the flag is `cursor.rowcount > 0`. -/
def insertOrIgnoreRow (rows : List Row) (r : Row) : List Row × Bool :=
  if rows.any (fun x => x.key == r.key) then (rows, false) else (rows ++ [r], true)

/-- `INSERT OR IGNORE INTO <table> VALUES (...)` (lines 128-136): if the
table was never created the statement raises and the handler drops the
row, leaving the final database unchanged. -/
def insertIntoFinal : FinalDB → String → Row → FinalDB × Bool
  | [], _, _ => ([], false)
  | (n, rows) :: restDb, tableName, r =>
    if n == tableName then
      let p := insertOrIgnoreRow rows r
      ((n, p.1) :: restDb, p.2)
    else
      let q := insertIntoFinal restDb tableName r
      ((n, rows) :: q.1, q.2)

/-- The schema-preparation loop (lines 65-103): for each table name,
read the `CREATE TABLE` text from the single schema source
`first_valid_temp_db` and, when found, apply it (rewritten to
`IF NOT EXISTS`) to the final database; when the source lacks the
table, only a warning is printed and nothing is created. -/
def applySchemaPhase (final0 : FinalDB) (source : TempDB) (tablesToMerge : List String) : FinalDB :=
  tablesToMerge.foldl
    (fun db tableName =>
      match findTempTable source tableName with
      | some _ => createIfAbsent db tableName
      | none => db)
    final0

/-- The inner `for row in temp_cursor` loop (lines 127-136), counting
the rows actually inserted. -/
def mergeRowsFromTemp (db : FinalDB) (cnt : Nat) (tableName : String)
    (rows : List Row) : FinalDB × Nat :=
  rows.foldl
    (fun p r =>
      let q := insertIntoFinal p.1 tableName r
      (q.1, if q.2 then p.2 + 1 else p.2))
    (db, cnt)

/-- One temporary database's contribution to one table (lines 109-138):
skip the file when missing or empty, skip when it lacks the table or the
table has no rows, otherwise copy every row with `INSERT OR IGNORE`. -/
def mergeStoreTable (db : FinalDB) (cnt : Nat) (tableName : String) (f : TempDB) :
    FinalDB × Nat :=
  if !(isValidTemp f) then (db, cnt)
  else
    match findTempTable f tableName with
    | none => (db, cnt)
    | some t =>
      if t.rows.length == 0 then (db, cnt)
      else mergeRowsFromTemp db cnt tableName t.rows

/-- The per-table loop over all temporary databases (lines 106-142). -/
def mergeTableData (db : FinalDB) (tableName : String) (files : List TempDB) :
    FinalDB × Nat :=
  files.foldl (fun p f => mergeStoreTable p.1 p.2 tableName f) (db, 0)

/-- The outer loop over the fixed table list, summing the per-table
merge counts into `total_rows_merged_all_tables`. -/
def mergeAllTables : FinalDB → List TempDB → List String → FinalDB × Nat
  | db, _, [] => (db, 0)
  | db, files, t :: restTables =>
    let p := mergeTableData db t files
    let q := mergeAllTables p.1 files restTables
    (q.1, p.2 + q.2)

/-- Result of `merge_databases`: the final database contents, the total
row count actually merged, the temp files removed by the cleanup loop
(lines 144-150), and whether the merge aborted for lack of any valid
schema source (lines 60-63). -/
structure MergeResult where
  final : FinalDB
  totalAdded : Nat
  deleted : List String
  aborted : Bool
deriving DecidableEq

/-- `merge_databases(temp_db_files, final_db_path, tables_to_merge)`
(lines 51-167).  `next((f for f in temp_db_files if ...), None)` picks
the first valid temp file as the only schema source; if none exists the
merge aborts, touching nothing.  After the data pass, the cleanup loop
deletes every temp file that exists (`if temp_db_path and
os.path.exists(temp_db_path)`), regardless of what was merged from it. -/
def merge_databases (tempDbFiles : List TempDB) (final0 : FinalDB)
    (tablesToMerge : List String) : MergeResult :=
  match tempDbFiles.find? isValidTemp with
  | none => { final := final0, totalAdded := 0, deleted := [], aborted := true }
  | some firstValid =>
    let afterSchema := applySchemaPhase final0 firstValid tablesToMerge
    let p := mergeAllTables afterSchema tempDbFiles tablesToMerge
    { final := p.1, totalAdded := p.2,
      deleted := (tempDbFiles.filter (fun f => !(f.path == "") && f.present)).map
        (fun f => f.path),
      aborted := false }

/-- `TABLES_TO_MERGE` (src/concurrent_downloader.py, lines 35-42). -/
def TABLES_TO_MERGE : List String :=
  ["comments_detail", "comments_header", "dockets_detail",
   "dockets_header", "documents_detail", "documents_header"]

/-- The primary-key values of a row list. -/
def keysOf (rows : List Row) : List String :=
  rows.map (fun r => r.key)

/-- The rows a temporary database contributes to a table: its copy of
that table, or nothing. -/
def tempRowsFor (f : TempDB) (tableName : String) : List Row :=
  match findTempTable f tableName with
  | some t => t.rows
  | none => []

/-- All rows for one table across the valid temporary databases, in
merge order. -/
def allRowsFor (files : List TempDB) (tableName : String) : List Row :=
  ((files.filter (fun f => isValidTemp f)).map (fun f => tempRowsFor f tableName)).flatten

/-- Folding `INSERT OR IGNORE` over a row list (the pure shape of the
final table's evolution during one table's data pass). -/
def insRows (rs : List Row) (rows : List Row) : List Row :=
  rows.foldl (fun a r => (insertOrIgnoreRow a r).1) rs

/-- The rows one temporary database actually contributes during the
data pass: nothing when it is skipped as missing or empty. -/
def contribOf (f : TempDB) (tableName : String) : List Row :=
  if isValidTemp f then tempRowsFor f tableName else []

theorem any_key_iff (rows : List Row) (k : String) :
    rows.any (fun x => x.key == k) = true ↔ k ∈ keysOf rows := by
  simp only [List.any_eq_true, keysOf, List.mem_map, beq_iff_eq]

theorem getTable_nil (t : String) : getTable [] t = none := rfl

theorem getTable_cons_pos (m : String) (rows : List Row) (db : FinalDB) (t : String)
    (h : (m == t) = true) : getTable ((m, rows) :: db) t = some rows := by
  unfold getTable
  rw [List.find?_cons_of_pos _ (by simpa using h)]
  rfl

theorem getTable_cons_neg (m : String) (rows : List Row) (db : FinalDB) (t : String)
    (h : (m == t) = false) : getTable ((m, rows) :: db) t = getTable db t := by
  unfold getTable
  rw [List.find?_cons_of_neg _ (by simp [h])]

theorem insertIntoFinal_cons_pos (m n : String) (rows : List Row) (db : FinalDB) (r : Row)
    (h : (m == n) = true) :
    insertIntoFinal ((m, rows) :: db) n r
      = ((m, (insertOrIgnoreRow rows r).1) :: db, (insertOrIgnoreRow rows r).2) := by
  simp [insertIntoFinal, h]

theorem insertIntoFinal_cons_neg (m n : String) (rows : List Row) (db : FinalDB) (r : Row)
    (h : (m == n) = false) :
    insertIntoFinal ((m, rows) :: db) n r
      = ((m, rows) :: (insertIntoFinal db n r).1, (insertIntoFinal db n r).2) := by
  simp [insertIntoFinal, h]

theorem getTable_insertIntoFinal_ne (t n : String) (h : t ≠ n) :
    ∀ (db : FinalDB) (r : Row), getTable (insertIntoFinal db n r).1 t = getTable db t := by
  intro db
  induction db with
  | nil => intro r; rfl
  | cons p restDb ih =>
    intro r
    obtain ⟨m, rows⟩ := p
    by_cases hm : (m == n) = true
    · have hme : m = n := beq_iff_eq.mp hm
      have hmt : (m == t) = false := by
        subst hme
        exact beq_eq_false_iff_ne.mpr (fun hc => h hc.symm)
      rw [insertIntoFinal_cons_pos m n rows restDb r hm]
      rw [getTable_cons_neg m _ restDb t hmt, getTable_cons_neg m rows restDb t hmt]
    · have hmB : (m == n) = false := by simpa using hm
      rw [insertIntoFinal_cons_neg m n rows restDb r hmB]
      by_cases hmt : (m == t) = true
      · rw [getTable_cons_pos m rows _ t hmt, getTable_cons_pos m rows restDb t hmt]
      · have hmtB : (m == t) = false := by simpa using hmt
        rw [getTable_cons_neg m rows _ t hmtB, getTable_cons_neg m rows restDb t hmtB]
        exact ih r

theorem insertIntoFinal_of_none (t : String) :
    ∀ (db : FinalDB) (r : Row), getTable db t = none → insertIntoFinal db t r = (db, false) := by
  intro db
  induction db with
  | nil => intro r _; rfl
  | cons p restDb ih =>
    intro r hnone
    obtain ⟨m, rows⟩ := p
    by_cases hmt : (m == t) = true
    · rw [getTable_cons_pos m rows restDb t hmt] at hnone
      exact absurd hnone (by simp)
    · have hmtB : (m == t) = false := by simpa using hmt
      rw [getTable_cons_neg m rows restDb t hmtB] at hnone
      rw [insertIntoFinal_cons_neg m t rows restDb r hmtB, ih r hnone]

theorem getTable_insertIntoFinal_self (t : String) :
    ∀ (db : FinalDB) (r : Row) (rs : List Row), getTable db t = some rs →
      getTable (insertIntoFinal db t r).1 t = some ((insertOrIgnoreRow rs r).1) ∧
      (insertIntoFinal db t r).2 = (insertOrIgnoreRow rs r).2 := by
  intro db
  induction db with
  | nil => intro r rs hsome; exact absurd hsome (by simp [getTable])
  | cons p restDb ih =>
    intro r rs hsome
    obtain ⟨m, rows⟩ := p
    by_cases hmt : (m == t) = true
    · rw [getTable_cons_pos m rows restDb t hmt] at hsome
      have hre : rows = rs := by injection hsome
      subst hre
      rw [insertIntoFinal_cons_pos m t rows restDb r hmt]
      exact ⟨getTable_cons_pos m _ restDb t hmt, rfl⟩
    · have hmtB : (m == t) = false := by simpa using hmt
      rw [getTable_cons_neg m rows restDb t hmtB] at hsome
      rw [insertIntoFinal_cons_neg m t rows restDb r hmtB]
      rcases ih r rs hsome with ⟨h1, h2⟩
      exact ⟨by rw [getTable_cons_neg m rows _ t hmtB]; exact h1, h2⟩

theorem insertIntoFinal_nop_of_mem (t : String) :
    ∀ (db : FinalDB) (r : Row) (rs : List Row), getTable db t = some rs →
      rs.any (fun x => x.key == r.key) = true → insertIntoFinal db t r = (db, false) := by
  intro db
  induction db with
  | nil => intro r rs hsome; exact absurd hsome (by simp [getTable])
  | cons p restDb ih =>
    intro r rs hsome hmem
    obtain ⟨m, rows⟩ := p
    by_cases hmt : (m == t) = true
    · rw [getTable_cons_pos m rows restDb t hmt] at hsome
      have hre : rows = rs := by injection hsome
      subst hre
      rw [insertIntoFinal_cons_pos m t rows restDb r hmt]
      rw [insertOrIgnoreRow, if_pos hmem]
    · have hmtB : (m == t) = false := by simpa using hmt
      rw [getTable_cons_neg m rows restDb t hmtB] at hsome
      rw [insertIntoFinal_cons_neg m t rows restDb r hmtB, ih r rs hsome hmem]

theorem getTable_append_one (db : FinalDB) (n : String) (rows : List Row) (t : String) :
    getTable (db ++ [(n, rows)]) t
      = match getTable db t with
        | some rs => some rs
        | none => if (n == t) = true then some rows else none := by
  induction db with
  | nil =>
    simp only [List.nil_append, getTable_nil]
    by_cases h : (n == t) = true
    · rw [getTable_cons_pos n rows [] t h]; simp [h]
    · have hB : (n == t) = false := by simpa using h
      rw [getTable_cons_neg n rows [] t hB, getTable_nil]; simp [hB]
  | cons p restDb ih =>
    obtain ⟨m, rws⟩ := p
    by_cases hmt : (m == t) = true
    · rw [List.cons_append, getTable_cons_pos m rws _ t hmt, getTable_cons_pos m rws restDb t hmt]
    · have hmtB : (m == t) = false := by simpa using hmt
      rw [List.cons_append, getTable_cons_neg m rws _ t hmtB,
        getTable_cons_neg m rws restDb t hmtB]
      exact ih

theorem getTable_createIfAbsent_of_some (db : FinalDB) (n t : String) (rs : List Row)
    (h : getTable db t = some rs) : getTable (createIfAbsent db n) t = some rs := by
  unfold createIfAbsent
  cases hn : getTable db n with
  | some _ => exact h
  | none => rw [getTable_append_one, h]

theorem createIfAbsent_of_isSome (db : FinalDB) (n : String)
    (h : (getTable db n).isSome) : createIfAbsent db n = db := by
  unfold createIfAbsent
  cases hn : getTable db n with
  | some _ => rfl
  | none => rw [hn] at h; exact absurd h (by simp)

theorem getTable_createIfAbsent_ne (db : FinalDB) (n t : String) (h : (n == t) = false) :
    getTable (createIfAbsent db n) t = getTable db t := by
  unfold createIfAbsent
  cases hn : getTable db n with
  | some _ => rfl
  | none =>
    rw [getTable_append_one]
    cases ht : getTable db t with
    | some _ => rfl
    | none => simp [h]

theorem getTable_createIfAbsent_self_of_none (db : FinalDB) (t : String)
    (h : getTable db t = none) : getTable (createIfAbsent db t) t = some [] := by
  unfold createIfAbsent
  rw [h, getTable_append_one, h]
  simp

theorem applySchemaPhase_of_some (fv : TempDB) (t : String) (rs : List Row) :
    ∀ (ts : List String) (db : FinalDB), getTable db t = some rs →
      getTable (applySchemaPhase db fv ts) t = some rs := by
  intro ts
  induction ts with
  | nil => intro db h; exact h
  | cons m restTs ih =>
    intro db h
    show getTable (applySchemaPhase (match findTempTable fv m with
      | some _ => createIfAbsent db m
      | none => db) fv restTs) t = some rs
    cases findTempTable fv m with
    | none => exact ih db h
    | some tt => exact ih _ (getTable_createIfAbsent_of_some db m t rs h)

theorem applySchemaPhase_isSome (fv : TempDB) (t : String) :
    ∀ (ts : List String) (db : FinalDB), t ∈ ts → (findTempTable fv t).isSome →
      (getTable (applySchemaPhase db fv ts) t).isSome := by
  intro ts
  induction ts with
  | nil => intro db h; exact absurd h (List.not_mem_nil t)
  | cons m restTs ih =>
    intro db hmem hsrc
    show (getTable (applySchemaPhase (match findTempTable fv m with
      | some _ => createIfAbsent db m
      | none => db) fv restTs) t).isSome
    by_cases hmt : m = t
    · subst hmt
      cases hfv : findTempTable fv m with
      | none => rw [hfv] at hsrc; exact absurd hsrc (by simp)
      | some tt =>
        cases hdb : getTable db m with
        | some rs =>
          rw [applySchemaPhase_of_some fv m rs restTs _
            (getTable_createIfAbsent_of_some db m m rs hdb)]
          rfl
        | none =>
          rw [applySchemaPhase_of_some fv m [] restTs _
            (getTable_createIfAbsent_self_of_none db m hdb)]
          rfl
    · have hmem2 : t ∈ restTs := by
        rcases List.mem_cons.mp hmem with h | h
        · exact absurd h.symm hmt
        · exact h
      cases findTempTable fv m with
      | none => exact ih db hmem2 hsrc
      | some tt => exact ih _ hmem2 hsrc

theorem applySchemaPhase_none (fv : TempDB) (t : String) :
    ∀ (ts : List String) (db : FinalDB), findTempTable fv t = none →
      getTable db t = none → getTable (applySchemaPhase db fv ts) t = none := by
  intro ts
  induction ts with
  | nil => intro db _ h; exact h
  | cons m restTs ih =>
    intro db hsrc h
    show getTable (applySchemaPhase (match findTempTable fv m with
      | some _ => createIfAbsent db m
      | none => db) fv restTs) t = none
    by_cases hmt : m = t
    · subst hmt
      rw [hsrc]
      exact ih db hsrc h
    · cases findTempTable fv m with
      | none => exact ih db hsrc h
      | some tt =>
        refine ih _ hsrc ?_
        rw [getTable_createIfAbsent_ne db m t (beq_eq_false_iff_ne.mpr hmt), h]

theorem applySchemaPhase_nop (fv : TempDB) :
    ∀ (ts : List String) (db : FinalDB),
      (∀ m ∈ ts, (findTempTable fv m).isSome → (getTable db m).isSome) →
      applySchemaPhase db fv ts = db := by
  intro ts
  induction ts with
  | nil => intro db _; rfl
  | cons m restTs ih =>
    intro db hall
    show applySchemaPhase (match findTempTable fv m with
      | some _ => createIfAbsent db m
      | none => db) fv restTs = db
    cases hfv : findTempTable fv m with
    | none => exact ih db (fun x hx => hall x (List.mem_cons_of_mem m hx))
    | some tt =>
      rw [createIfAbsent_of_isSome db m
        (hall m (List.mem_cons_self m restTs) (by rw [hfv]; rfl))]
      exact ih db (fun x hx => hall x (List.mem_cons_of_mem m hx))

theorem mergeRowsFromTemp_none (t : String) :
    ∀ (rows : List Row) (db : FinalDB) (c : Nat), getTable db t = none →
      mergeRowsFromTemp db c t rows = (db, c) := by
  intro rows
  induction rows with
  | nil => intro db c _; rfl
  | cons r rest ih =>
    intro db c h
    show mergeRowsFromTemp (insertIntoFinal db t r).1
        (if (insertIntoFinal db t r).2 then c + 1 else c) t rest = (db, c)
    rw [insertIntoFinal_of_none t db r h]
    exact ih db c h

theorem getTable_mergeRowsFromTemp_ne (t n : String) (h : t ≠ n) :
    ∀ (rows : List Row) (db : FinalDB) (c : Nat),
      getTable (mergeRowsFromTemp db c n rows).1 t = getTable db t := by
  intro rows
  induction rows with
  | nil => intro db c; rfl
  | cons r rest ih =>
    intro db c
    show getTable (mergeRowsFromTemp (insertIntoFinal db n r).1
        (if (insertIntoFinal db n r).2 then c + 1 else c) n rest).1 t = getTable db t
    rw [ih]
    exact getTable_insertIntoFinal_ne t n h db r

theorem getTable_mergeRowsFromTemp_self (t : String) :
    ∀ (rows : List Row) (db : FinalDB) (c : Nat) (rs : List Row), getTable db t = some rs →
      getTable (mergeRowsFromTemp db c t rows).1 t = some (insRows rs rows) := by
  intro rows
  induction rows with
  | nil => intro db c rs h; exact h
  | cons r rest ih =>
    intro db c rs h
    rcases getTable_insertIntoFinal_self t db r rs h with ⟨h1, _⟩
    show getTable (mergeRowsFromTemp (insertIntoFinal db t r).1
        (if (insertIntoFinal db t r).2 then c + 1 else c) t rest).1 t
      = some (insRows rs (r :: rest))
    rw [ih _ _ _ h1]
    rfl

theorem mergeRowsFromTemp_nop (t : String) :
    ∀ (rows : List Row) (db : FinalDB) (c : Nat) (rs : List Row), getTable db t = some rs →
      (∀ r ∈ rows, rs.any (fun x => x.key == r.key) = true) →
      mergeRowsFromTemp db c t rows = (db, c) := by
  intro rows
  induction rows with
  | nil => intro db c rs _ _; rfl
  | cons r rest ih =>
    intro db c rs h hall
    show mergeRowsFromTemp (insertIntoFinal db t r).1
        (if (insertIntoFinal db t r).2 then c + 1 else c) t rest = (db, c)
    rw [insertIntoFinal_nop_of_mem t db r rs h (hall r (List.mem_cons_self r rest))]
    exact ih db c rs h (fun x hx => hall x (List.mem_cons_of_mem r hx))

theorem mergeStoreTable_none (t : String) (db : FinalDB) (c : Nat) (f : TempDB)
    (h : getTable db t = none) : mergeStoreTable db c t f = (db, c) := by
  unfold mergeStoreTable
  cases hv : isValidTemp f with
  | false => rfl
  | true =>
    simp only [Bool.not_true, Bool.false_eq_true, if_false]
    cases hf : findTempTable f t with
    | none => rfl
    | some tt =>
      by_cases hr : (tt.rows.length == 0) = true
      · simp [hr]
      · have hrB : (tt.rows.length == 0) = false := by simpa using hr
        simp only [hrB, Bool.false_eq_true, if_false]
        exact mergeRowsFromTemp_none t tt.rows db c h

theorem getTable_mergeStoreTable_ne (t n : String) (h : t ≠ n) (db : FinalDB) (c : Nat)
    (f : TempDB) : getTable (mergeStoreTable db c n f).1 t = getTable db t := by
  unfold mergeStoreTable
  cases hv : isValidTemp f with
  | false => rfl
  | true =>
    simp only [Bool.not_true, Bool.false_eq_true, if_false]
    cases hf : findTempTable f n with
    | none => rfl
    | some tt =>
      by_cases hr : (tt.rows.length == 0) = true
      · simp [hr]
      · have hrB : (tt.rows.length == 0) = false := by simpa using hr
        simp only [hrB, Bool.false_eq_true, if_false]
        exact getTable_mergeRowsFromTemp_ne t n h tt.rows db c

theorem getTable_mergeStoreTable_self (t : String) (db : FinalDB) (c : Nat) (f : TempDB)
    (rs : List Row) (h : getTable db t = some rs) :
    getTable (mergeStoreTable db c t f).1 t = some (insRows rs (contribOf f t)) := by
  unfold mergeStoreTable contribOf
  cases hv : isValidTemp f with
  | false => exact h
  | true =>
    simp only [Bool.not_true, Bool.false_eq_true, if_false, if_true]
    unfold tempRowsFor
    cases hf : findTempTable f t with
    | none => exact h
    | some tt =>
      by_cases hr : (tt.rows.length == 0) = true
      · have he : tt.rows = [] := by
          have := beq_iff_eq.mp hr
          exact List.eq_nil_of_length_eq_zero this
        simp only [hr, if_true, he]
        exact h
      · have hrB : (tt.rows.length == 0) = false := by simpa using hr
        simp only [hrB, Bool.false_eq_true, if_false]
        exact getTable_mergeRowsFromTemp_self t tt.rows db c rs h

theorem mergeStoreTable_nop (t : String) (db : FinalDB) (c : Nat) (f : TempDB)
    (rs : List Row) (h : getTable db t = some rs)
    (hall : ∀ r ∈ contribOf f t, rs.any (fun x => x.key == r.key) = true) :
    mergeStoreTable db c t f = (db, c) := by
  unfold mergeStoreTable
  cases hv : isValidTemp f with
  | false => rfl
  | true =>
    simp only [Bool.not_true, Bool.false_eq_true, if_false]
    cases hf : findTempTable f t with
    | none => rfl
    | some tt =>
      by_cases hr : (tt.rows.length == 0) = true
      · simp [hr]
      · have hrB : (tt.rows.length == 0) = false := by simpa using hr
        simp only [hrB, Bool.false_eq_true, if_false]
        refine mergeRowsFromTemp_nop t tt.rows db c rs h ?_
        intro r hrr
        apply hall
        unfold contribOf tempRowsFor
        rw [hv, hf]
        simpa using hrr

theorem allRowsFor_cons (f : TempDB) (fs : List TempDB) (t : String) :
    allRowsFor (f :: fs) t = contribOf f t ++ allRowsFor fs t := by
  unfold allRowsFor contribOf
  cases hv : isValidTemp f with
  | true => simp [List.filter_cons, hv]
  | false => simp [List.filter_cons, hv]

theorem insRows_append (rs a b : List Row) :
    insRows rs (a ++ b) = insRows (insRows rs a) b := by
  simp [insRows, List.foldl_append]

theorem mergeTableDataAux_none (t : String) :
    ∀ (files : List TempDB) (db : FinalDB) (c : Nat), getTable db t = none →
      files.foldl (fun p f => mergeStoreTable p.1 p.2 t f) (db, c) = (db, c) := by
  intro files
  induction files with
  | nil => intro db c _; rfl
  | cons f fs ih =>
    intro db c h
    show fs.foldl (fun p f => mergeStoreTable p.1 p.2 t f) (mergeStoreTable db c t f) = (db, c)
    rw [mergeStoreTable_none t db c f h]
    exact ih db c h

theorem getTable_mergeTableDataAux_ne (t n : String) (h : t ≠ n) :
    ∀ (files : List TempDB) (db : FinalDB) (c : Nat),
      getTable ((files.foldl (fun p f => mergeStoreTable p.1 p.2 n f) (db, c)).1) t
        = getTable db t := by
  intro files
  induction files with
  | nil => intro db c; rfl
  | cons f fs ih =>
    intro db c
    show getTable ((fs.foldl (fun p f => mergeStoreTable p.1 p.2 n f)
        (mergeStoreTable db c n f)).1) t = getTable db t
    have h2 := ih (mergeStoreTable db c n f).1 (mergeStoreTable db c n f).2
    exact h2.trans (getTable_mergeStoreTable_ne t n h db c f)

theorem getTable_mergeTableDataAux_self (t : String) :
    ∀ (files : List TempDB) (db : FinalDB) (c : Nat) (rs : List Row),
      getTable db t = some rs →
      getTable ((files.foldl (fun p f => mergeStoreTable p.1 p.2 t f) (db, c)).1) t
        = some (insRows rs (allRowsFor files t)) := by
  intro files
  induction files with
  | nil => intro db c rs h; exact h
  | cons f fs ih =>
    intro db c rs h
    have h1 := getTable_mergeStoreTable_self t db c f rs h
    show getTable ((fs.foldl (fun p f => mergeStoreTable p.1 p.2 t f)
        (mergeStoreTable db c t f)).1) t = some (insRows rs (allRowsFor (f :: fs) t))
    have h2 := ih (mergeStoreTable db c t f).1 (mergeStoreTable db c t f).2 _ h1
    exact h2.trans (by rw [allRowsFor_cons, insRows_append])

theorem mergeTableDataAux_nop (t : String) :
    ∀ (files : List TempDB) (db : FinalDB) (c : Nat) (rs : List Row),
      getTable db t = some rs →
      (∀ r ∈ allRowsFor files t, rs.any (fun x => x.key == r.key) = true) →
      files.foldl (fun p f => mergeStoreTable p.1 p.2 t f) (db, c) = (db, c) := by
  intro files
  induction files with
  | nil => intro db c rs _ _; rfl
  | cons f fs ih =>
    intro db c rs h hall
    show fs.foldl (fun p f => mergeStoreTable p.1 p.2 t f) (mergeStoreTable db c t f) = (db, c)
    rw [mergeStoreTable_nop t db c f rs h (fun r hr => hall r (by
      rw [allRowsFor_cons]
      exact List.mem_append_left _ hr))]
    exact ih db c rs h (fun r hr => hall r (by
      rw [allRowsFor_cons]
      exact List.mem_append_right _ hr))

theorem mergeTableData_none (t : String) (files : List TempDB) (db : FinalDB)
    (h : getTable db t = none) : mergeTableData db t files = (db, 0) :=
  mergeTableDataAux_none t files db 0 h

theorem getTable_mergeTableData_ne (t n : String) (h : t ≠ n) (files : List TempDB)
    (db : FinalDB) : getTable (mergeTableData db n files).1 t = getTable db t :=
  getTable_mergeTableDataAux_ne t n h files db 0

theorem getTable_mergeTableData_self (t : String) (files : List TempDB) (db : FinalDB)
    (rs : List Row) (h : getTable db t = some rs) :
    getTable (mergeTableData db t files).1 t = some (insRows rs (allRowsFor files t)) :=
  getTable_mergeTableDataAux_self t files db 0 rs h

theorem mergeTableData_nop (t : String) (files : List TempDB) (db : FinalDB)
    (rs : List Row) (h : getTable db t = some rs)
    (hall : ∀ r ∈ allRowsFor files t, rs.any (fun x => x.key == r.key) = true) :
    mergeTableData db t files = (db, 0) :=
  mergeTableDataAux_nop t files db 0 rs h hall

theorem keysOf_append (a b : List Row) : keysOf (a ++ b) = keysOf a ++ keysOf b := by
  simp [keysOf]

theorem mem_keysOf_insertOrIgnoreRow (rs : List Row) (r : Row) (k : String) :
    k ∈ keysOf ((insertOrIgnoreRow rs r).1) ↔ k ∈ keysOf rs ∨ k = r.key := by
  unfold insertOrIgnoreRow
  by_cases h : rs.any (fun x => x.key == r.key) = true
  · rw [if_pos h]
    constructor
    · exact Or.inl
    · rintro (hk | rfl)
      · exact hk
      · exact (any_key_iff rs r.key).mp h
  · rw [if_neg h]
    show k ∈ keysOf (rs ++ [r]) ↔ _
    rw [keysOf_append]
    simp [keysOf, List.mem_append]

theorem mem_keysOf_insRows (k : String) :
    ∀ (rows rs : List Row),
      k ∈ keysOf (insRows rs rows) ↔ k ∈ keysOf rs ∨ k ∈ keysOf rows := by
  intro rows
  induction rows with
  | nil => intro rs; simp [insRows, keysOf]
  | cons r rest ih =>
    intro rs
    show k ∈ keysOf (insRows (insertOrIgnoreRow rs r).1 rest) ↔ _
    rw [ih, mem_keysOf_insertOrIgnoreRow]
    simp only [keysOf, List.map_cons, List.mem_cons]
    tauto

theorem nodup_keysOf_insertOrIgnoreRow (rs : List Row) (r : Row)
    (h : (keysOf rs).Nodup) : (keysOf ((insertOrIgnoreRow rs r).1)).Nodup := by
  unfold insertOrIgnoreRow
  by_cases hk : rs.any (fun x => x.key == r.key) = true
  · rw [if_pos hk]; exact h
  · rw [if_neg hk]
    show (keysOf (rs ++ [r])).Nodup
    rw [keysOf_append]
    refine List.Nodup.append h (by simp [keysOf]) ?_
    intro a ha hb
    have hab : a = r.key := by simpa [keysOf] using hb
    subst hab
    exact hk ((any_key_iff rs r.key).mpr ha)

theorem nodup_keysOf_insRows :
    ∀ (rows rs : List Row), (keysOf rs).Nodup → (keysOf (insRows rs rows)).Nodup := by
  intro rows
  induction rows with
  | nil => intro rs h; exact h
  | cons r rest ih =>
    intro rs h
    show (keysOf (insRows (insertOrIgnoreRow rs r).1 rest)).Nodup
    exact ih _ (nodup_keysOf_insertOrIgnoreRow rs r h)

theorem mem_insRows_source :
    ∀ (rows rs : List Row) (r : Row), r ∈ insRows rs rows → r ∈ rs ∨ r ∈ rows := by
  intro rows
  induction rows with
  | nil => intro rs r h; exact Or.inl h
  | cons x rest ih =>
    intro rs r h
    have h2 := ih (insertOrIgnoreRow rs x).1 r h
    rcases h2 with h2 | h2
    · unfold insertOrIgnoreRow at h2
      by_cases hk : rs.any (fun y => y.key == x.key) = true
      · rw [if_pos hk] at h2
        exact Or.inl h2
      · rw [if_neg hk] at h2
        rcases List.mem_append.mp h2 with h3 | h3
        · exact Or.inl h3
        · have h4 : r = x := by simpa using h3
          subst h4
          exact Or.inr (List.mem_cons_self r rest)
    · exact Or.inr (List.mem_cons_of_mem x h2)

theorem getTable_mergeAllTables_not_mem (t : String) :
    ∀ (ts : List String) (files : List TempDB) (db : FinalDB), t ∉ ts →
      getTable (mergeAllTables db files ts).1 t = getTable db t := by
  intro ts
  induction ts with
  | nil => intro files db _; rfl
  | cons m rest ih =>
    intro files db hmem
    have hmt : t ≠ m := fun hc => hmem (hc ▸ List.mem_cons_self m rest)
    show getTable ((mergeAllTables (mergeTableData db m files).1 files rest).1) t
      = getTable db t
    rw [ih files _ (fun hc => hmem (List.mem_cons_of_mem m hc))]
    exact getTable_mergeTableData_ne t m hmt files db

theorem getTable_mergeAllTables_none (t : String) :
    ∀ (ts : List String) (files : List TempDB) (db : FinalDB), getTable db t = none →
      getTable (mergeAllTables db files ts).1 t = none := by
  intro ts
  induction ts with
  | nil => intro files db h; exact h
  | cons m rest ih =>
    intro files db h
    show getTable ((mergeAllTables (mergeTableData db m files).1 files rest).1) t = none
    by_cases hm : m = t
    · subst hm
      rw [mergeTableData_none m files db h]
      exact ih files db h
    · refine ih files _ ?_
      rw [getTable_mergeTableData_ne t m (fun hc => hm hc.symm) files db]
      exact h

theorem getTable_mergeAllTables_mono (t : String) :
    ∀ (ts : List String) (files : List TempDB) (db : FinalDB) (rs : List Row),
      getTable db t = some rs →
      ∃ rs2, getTable (mergeAllTables db files ts).1 t = some rs2 ∧
        ∀ k ∈ keysOf rs, k ∈ keysOf rs2 := by
  intro ts
  induction ts with
  | nil => intro files db rs h; exact ⟨rs, h, fun k hk => hk⟩
  | cons m rest ih =>
    intro files db rs h
    show ∃ rs2, getTable ((mergeAllTables (mergeTableData db m files).1 files rest).1) t
      = some rs2 ∧ _
    by_cases hm : m = t
    · subst hm
      have h1 := getTable_mergeTableData_self m files db rs h
      obtain ⟨rs2, h2, hsub⟩ := ih files _ _ h1
      exact ⟨rs2, h2, fun k hk => hsub k ((mem_keysOf_insRows k _ rs).mpr (Or.inl hk))⟩
    · refine ih files _ rs ?_
      rw [getTable_mergeTableData_ne t m (fun hc => hm hc.symm) files db]
      exact h

theorem getTable_mergeAllTables_isSome (t : String) (ts : List String)
    (files : List TempDB) (db : FinalDB) (h : (getTable db t).isSome) :
    (getTable (mergeAllTables db files ts).1 t).isSome := by
  cases hdb : getTable db t with
  | none => rw [hdb] at h; exact absurd h (by simp)
  | some rs =>
    obtain ⟨rs2, h2, _⟩ := getTable_mergeAllTables_mono t ts files db rs hdb
    rw [h2]
    rfl

theorem getTable_mergeAllTables_count_one (t : String) :
    ∀ (ts : List String) (files : List TempDB) (db : FinalDB) (rs : List Row),
      ts.count t = 1 → getTable db t = some rs →
      getTable (mergeAllTables db files ts).1 t = some (insRows rs (allRowsFor files t)) := by
  intro ts
  induction ts with
  | nil => intro files db rs hc; simp at hc
  | cons m rest ih =>
    intro files db rs hc h
    show getTable ((mergeAllTables (mergeTableData db m files).1 files rest).1) t
      = some (insRows rs (allRowsFor files t))
    by_cases hm : m = t
    · subst hm
      have hcr : rest.count m = 0 := by
        rw [List.count_cons_self] at hc
        omega
      have hnr : m ∉ rest := by
        rw [← List.count_pos_iff]
        omega
      rw [getTable_mergeAllTables_not_mem m rest files _ hnr]
      exact getTable_mergeTableData_self m files db rs h
    · have hcr : rest.count t = 1 := by
        rw [List.count_cons_of_ne (fun hc2 => hm hc2.symm)] at hc
        exact hc
      refine ih files _ rs hcr ?_
      rw [getTable_mergeTableData_ne t m (fun hc2 => hm hc2.symm) files db]
      exact h

theorem mergeAllTables_sat (t : String) :
    ∀ (ts : List String) (files : List TempDB) (db : FinalDB), t ∈ ts →
      getTable (mergeAllTables db files ts).1 t = none ∨
      ∃ rs2, getTable (mergeAllTables db files ts).1 t = some rs2 ∧
        ∀ r ∈ allRowsFor files t, r.key ∈ keysOf rs2 := by
  intro ts
  induction ts with
  | nil => intro files db h; exact absurd h (List.not_mem_nil t)
  | cons m rest ih =>
    intro files db hmem
    show getTable ((mergeAllTables (mergeTableData db m files).1 files rest).1) t = none ∨ _
    by_cases hmem2 : t ∈ rest
    · exact ih files _ hmem2
    · have hm : m = t := by
        rcases List.mem_cons.mp hmem with h | h
        · exact h.symm
        · exact absurd h hmem2
      subst hm
      cases hdb : getTable db m with
      | none =>
        left
        rw [mergeTableData_none m files db hdb]
        exact getTable_mergeAllTables_none m rest files db hdb
      | some rs =>
        right
        have h1 := getTable_mergeTableData_self m files db rs hdb
        obtain ⟨rs2, h2, hsub⟩ := getTable_mergeAllTables_mono m rest files _ _ h1
        refine ⟨rs2, h2, fun r hr => hsub r.key ?_⟩
        exact (mem_keysOf_insRows r.key _ rs).mpr (Or.inr (by
          simp only [keysOf, List.mem_map]
          exact ⟨r, hr, rfl⟩))

theorem mergeAllTables_nop :
    ∀ (ts : List String) (files : List TempDB) (db : FinalDB),
      (∀ t ∈ ts, getTable db t = none ∨
        ∃ rs, getTable db t = some rs ∧ ∀ r ∈ allRowsFor files t, r.key ∈ keysOf rs) →
      mergeAllTables db files ts = (db, 0) := by
  intro ts
  induction ts with
  | nil => intro files db _; rfl
  | cons m rest ih =>
    intro files db hall
    have hme : mergeTableData db m files = (db, 0) := by
      rcases hall m (List.mem_cons_self m rest) with h | ⟨rs, h, hsub⟩
      · exact mergeTableData_none m files db h
      · refine mergeTableData_nop m files db rs h ?_
        intro r hr
        exact (any_key_iff rs r.key).mpr (hsub r hr)
    show ((mergeAllTables (mergeTableData db m files).1 files rest).1,
      (mergeTableData db m files).2
        + (mergeAllTables (mergeTableData db m files).1 files rest).2) = (db, 0)
    rw [hme]
    have h2 := ih files db (fun x hx => hall x (List.mem_cons_of_mem m hx))
    rw [h2]
    simp

theorem applySchemaPhase_creates_of_none (fv : TempDB) (t : String) :
    ∀ (ts : List String) (db : FinalDB), t ∈ ts → (findTempTable fv t).isSome →
      getTable db t = none → getTable (applySchemaPhase db fv ts) t = some [] := by
  intro ts
  induction ts with
  | nil => intro db h; exact absurd h (List.not_mem_nil t)
  | cons m rest ih =>
    intro db hmem hsrc hnone
    show getTable (applySchemaPhase (match findTempTable fv m with
      | some _ => createIfAbsent db m
      | none => db) fv rest) t = some []
    by_cases hmt : m = t
    · subst hmt
      cases hfv : findTempTable fv m with
      | none => rw [hfv] at hsrc; exact absurd hsrc (by simp)
      | some tt =>
        exact applySchemaPhase_of_some fv m [] rest _
          (getTable_createIfAbsent_self_of_none db m hnone)
    · have hmem2 : t ∈ rest := by
        rcases List.mem_cons.mp hmem with h | h
        · exact absurd h.symm hmt
        · exact h
      cases hfv : findTempTable fv m with
      | none => exact ih db hmem2 hsrc hnone
      | some tt =>
        refine ih _ hmem2 hsrc ?_
        rw [getTable_createIfAbsent_ne db m t (beq_eq_false_iff_ne.mpr hmt)]
        exact hnone

theorem merge_databases_eq_of_find (files : List TempDB) (fv : TempDB) (final0 : FinalDB)
    (ts : List String) (hfv : files.find? isValidTemp = some fv) :
    merge_databases files final0 ts
      = { final := (mergeAllTables (applySchemaPhase final0 fv ts) files ts).1,
          totalAdded := (mergeAllTables (applySchemaPhase final0 fv ts) files ts).2,
          deleted := (files.filter (fun f => !(f.path == "") && f.present)).map
            (fun f => f.path),
          aborted := false } := by
  unfold merge_databases
  rw [hfv]

theorem merge_databases_eq_abort (files : List TempDB) (final0 : FinalDB)
    (ts : List String) (h : files.find? isValidTemp = none) :
    merge_databases files final0 ts
      = { final := final0, totalAdded := 0, deleted := [], aborted := true } := by
  unfold merge_databases
  rw [h]

/-! ### Claim theorems for the merge engine -/

/-- A valid store used by the merge witnesses: it holds two
`comments_detail` rows. -/
def storeA : TempDB :=
  TempDB.mk "data/temp_dbs/temp_worker_comments_0.db" true 12
    [TempTable.mk "comments_detail"
      "CREATE TABLE comments_detail (commentId TEXT PRIMARY KEY, body TEXT)"
      [Row.mk "EPA-C-1" ["first"], Row.mk "EPA-C-2" ["second"]]]

/-- A second valid store overlapping `storeA` on key `EPA-C-2`. -/
def storeB : TempDB :=
  TempDB.mk "data/temp_dbs/temp_worker_comments_1.db" true 9
    [TempTable.mk "comments_detail"
      "CREATE TABLE comments_detail (commentId TEXT PRIMARY KEY, body TEXT)"
      [Row.mk "EPA-C-2" ["dup"], Row.mk "EPA-C-3" ["third"]]]

/-- Claim C1 (amended): for a table of the configured list that the
single schema source (the first valid OutputStore) contains, merging
into a fresh CanonicalStore yields exactly the union by primary key of
that table's rows across all valid OutputStores: the merged key set
equals the union of the stores' key sets, it has no duplicate keys, the
merged cardinality is the number of distinct keys (hence the sum of the
stores' cardinalities when their key sets are disjoint), and every
merged row comes from some store.  The provision about the schema source
is forced by the counterexample: when the first valid store lacks the
table, the table is never created and every row of it is silently
dropped, so the original unconditional claim fails. -/
theorem merge_union_complete (files : List TempDB) (fv : TempDB) (t : String)
    (hfv : files.find? isValidTemp = some fv)
    (ht : t ∈ TABLES_TO_MERGE)
    (hsrc : (findTempTable fv t).isSome) :
    ∃ rows, getTable (merge_databases files [] TABLES_TO_MERGE).final t = some rows ∧
      (keysOf rows).toFinset = (keysOf (allRowsFor files t)).toFinset ∧
      (keysOf rows).Nodup ∧
      rows.length = (keysOf (allRowsFor files t)).toFinset.card ∧
      ∀ r ∈ rows, r ∈ allRowsFor files t := by
  rw [merge_databases_eq_of_find files fv [] TABLES_TO_MERGE hfv]
  have hnodup : TABLES_TO_MERGE.Nodup := by decide
  have hcount : TABLES_TO_MERGE.count t = 1 := List.count_eq_one_of_mem hnodup ht
  have hschema : getTable (applySchemaPhase [] fv TABLES_TO_MERGE) t = some [] :=
    applySchemaPhase_creates_of_none fv t TABLES_TO_MERGE [] ht hsrc rfl
  have hdata := getTable_mergeAllTables_count_one t TABLES_TO_MERGE files
    (applySchemaPhase [] fv TABLES_TO_MERGE) [] hcount hschema
  have hfins : (keysOf (insRows [] (allRowsFor files t))).toFinset
      = (keysOf (allRowsFor files t)).toFinset := by
    ext k
    simp only [List.mem_toFinset]
    rw [mem_keysOf_insRows k (allRowsFor files t) []]
    simp [keysOf]
  have hnd : (keysOf (insRows [] (allRowsFor files t))).Nodup :=
    nodup_keysOf_insRows (allRowsFor files t) [] (by simp [keysOf])
  refine ⟨insRows [] (allRowsFor files t), hdata, hfins, hnd, ?_, ?_⟩
  · calc (insRows [] (allRowsFor files t)).length
        = (keysOf (insRows [] (allRowsFor files t))).length := by simp [keysOf]
      _ = (keysOf (insRows [] (allRowsFor files t))).toFinset.card :=
          (List.toFinset_card_of_nodup hnd).symm
      _ = (keysOf (allRowsFor files t)).toFinset.card := by rw [hfins]
  · intro r hr
    rcases mem_insRows_source (allRowsFor files t) [] r hr with h | h
    · exact absurd h (List.not_mem_nil r)
    · exact h

theorem merge_union_complete_witness :
    ([storeA, storeB].find? isValidTemp = some storeA ∧
      "comments_detail" ∈ TABLES_TO_MERGE ∧
      (findTempTable storeA "comments_detail").isSome) ∧
    (∃ rows,
      getTable (merge_databases [storeA, storeB] [] TABLES_TO_MERGE).final
          "comments_detail" = some rows ∧
      (keysOf rows).toFinset
        = (keysOf (allRowsFor [storeA, storeB] "comments_detail")).toFinset ∧
      (keysOf rows).Nodup ∧
      rows.length
        = (keysOf (allRowsFor [storeA, storeB] "comments_detail")).toFinset.card ∧
      ∀ r ∈ rows, r ∈ allRowsFor [storeA, storeB] "comments_detail") :=
  ⟨⟨by decide, by decide, by decide⟩,
    merge_union_complete [storeA, storeB] storeA "comments_detail" (by decide) (by decide)
      (by decide)⟩

/-- A valid store that lacks `comments_detail` entirely; being first in
the list, it is the only schema source the merge engine consults. -/
def cexStoreNoTable : TempDB :=
  TempDB.mk "data/temp_dbs/temp_worker_comments_4.db" true 6 []

/-- A later valid store holding one `comments_detail` row. -/
def cexStoreWithRow : TempDB :=
  TempDB.mk "data/temp_dbs/temp_worker_comments_5.db" true 15
    [TempTable.mk "comments_detail"
      "CREATE TABLE comments_detail (commentId TEXT PRIMARY KEY, body TEXT)"
      [Row.mk "EPA-C-9" ["lost"]]]

/-- Claim C1 counterexample: both stores are successfully produced and
valid, a row with key `EPA-C-9` exists in the second store, yet after
the merge the canonical store has no `comments_detail` table at all —
the row is lost, so the canonical store does not contain the union of
the stores' rows. -/
theorem merge_union_complete_cex :
    getTable (merge_databases [cexStoreNoTable, cexStoreWithRow] [] TABLES_TO_MERGE).final
        "comments_detail" = none ∧
    keysOf (allRowsFor [cexStoreNoTable, cexStoreWithRow] "comments_detail")
      = ["EPA-C-9"] ∧
    isValidTemp cexStoreNoTable = true ∧ isValidTemp cexStoreWithRow = true := by
  refine ⟨?_, by decide, by decide, by decide⟩
  rw [merge_databases_eq_of_find [cexStoreNoTable, cexStoreWithRow] cexStoreNoTable []
    TABLES_TO_MERGE (by decide)]
  have hx := getTable_mergeAllTables_none "comments_detail" TABLES_TO_MERGE
    [cexStoreNoTable, cexStoreWithRow] (applySchemaPhase [] cexStoreNoTable TABLES_TO_MERGE)
    (applySchemaPhase_none cexStoreNoTable "comments_detail" TABLES_TO_MERGE [] (by decide)
      rfl)
  exact hx

/-- Claim C2: running the merge twice with the same OutputStores against
the canonical store that the first run produced changes nothing: the
second run's final contents equal the first run's, and it inserts zero
rows, because a row is inserted only when no row with its primary key is
already present (insert-or-ignore).  This holds for every initial
canonical store, every store list (including an aborting one) and every
table list. -/
theorem merge_idempotent (files : List TempDB) (final0 : FinalDB) (ts : List String) :
    (merge_databases files (merge_databases files final0 ts).final ts).final
      = (merge_databases files final0 ts).final ∧
    (merge_databases files (merge_databases files final0 ts).final ts).totalAdded = 0 := by
  cases hf : files.find? isValidTemp with
  | none =>
    have h1 := merge_databases_eq_abort files final0 ts hf
    rw [h1]
    show (merge_databases files final0 ts).final = final0 ∧
      (merge_databases files final0 ts).totalAdded = 0
    rw [h1]
    exact ⟨rfl, rfl⟩
  | some fv =>
    have h1 := merge_databases_eq_of_find files fv final0 ts hf
    have hd1 : (merge_databases files final0 ts).final
        = (mergeAllTables (applySchemaPhase final0 fv ts) files ts).1 := by rw [h1]
    have hsome : ∀ m ∈ ts, (findTempTable fv m).isSome →
        (getTable ((mergeAllTables (applySchemaPhase final0 fv ts) files ts).1) m).isSome :=
      fun m hm hs => getTable_mergeAllTables_isSome m ts files _
        (applySchemaPhase_isSome fv m ts final0 hm hs)
    have hschema2 : applySchemaPhase
          ((mergeAllTables (applySchemaPhase final0 fv ts) files ts).1) fv ts
        = (mergeAllTables (applySchemaPhase final0 fv ts) files ts).1 :=
      applySchemaPhase_nop fv ts _ hsome
    have hsat : ∀ m ∈ ts,
        getTable ((mergeAllTables (applySchemaPhase final0 fv ts) files ts).1) m = none ∨
        ∃ rs, getTable ((mergeAllTables (applySchemaPhase final0 fv ts) files ts).1) m
            = some rs ∧
          ∀ r ∈ allRowsFor files m, r.key ∈ keysOf rs :=
      fun m hm => mergeAllTables_sat m ts files (applySchemaPhase final0 fv ts) hm
    have hdata2 := mergeAllTables_nop ts files _ hsat
    have h2 := merge_databases_eq_of_find files fv
      ((mergeAllTables (applySchemaPhase final0 fv ts) files ts).1) ts hf
    rw [hschema2, hdata2] at h2
    rw [hd1, h2]
    exact ⟨rfl, rfl⟩

/-- Claim C3 (amended): the Merge Engine takes every table's schema from
the single first valid OutputStore of the list: a table that store
contains ends up existing in the CanonicalStore, and a table it lacks is
never created (when the canonical store did not already have it) — even
when a later OutputStore does contain the table.  The original claim's
fallback to a later store's schema does not exist in the code; the
counterexample shows the table staying absent although a later store has
it. -/
theorem schema_source_first_only (files : List TempDB) (fv : TempDB) (t : String)
    (ts : List String) (final0 : FinalDB)
    (hfv : files.find? isValidTemp = some fv)
    (ht : t ∈ ts)
    (h0 : getTable final0 t = none) :
    ((findTempTable fv t).isSome →
      (getTable (merge_databases files final0 ts).final t).isSome) ∧
    (findTempTable fv t = none →
      getTable (merge_databases files final0 ts).final t = none) := by
  rw [merge_databases_eq_of_find files fv final0 ts hfv]
  constructor
  · intro hsrc
    exact getTable_mergeAllTables_isSome t ts files _
      (applySchemaPhase_isSome fv t ts final0 ht hsrc)
  · intro hsrc
    exact getTable_mergeAllTables_none t ts files _
      (applySchemaPhase_none fv t ts final0 hsrc h0)

theorem schema_source_first_only_witness :
    ([storeA, storeB].find? isValidTemp = some storeA ∧
      "comments_detail" ∈ TABLES_TO_MERGE ∧
      getTable ([] : FinalDB) "comments_detail" = none) ∧
    ((findTempTable storeA "comments_detail").isSome →
      (getTable (merge_databases [storeA, storeB] [] TABLES_TO_MERGE).final
        "comments_detail").isSome) :=
  ⟨⟨by decide, by decide, rfl⟩,
    (schema_source_first_only [storeA, storeB] storeA "comments_detail"
      TABLES_TO_MERGE [] (by decide) (by decide) rfl).1⟩

/-- A valid first store that has only `comments_header`, not
`dockets_detail`. -/
def cexStoreHeaderOnly : TempDB :=
  TempDB.mk "data/temp_dbs/temp_worker_comments_6.db" true 4
    [TempTable.mk "comments_header" "CREATE TABLE comments_header (commentId TEXT)" []]

/-- A later valid store that does contain `dockets_detail` with its
schema. -/
def cexStoreDockets : TempDB :=
  TempDB.mk "data/temp_dbs/temp_worker_comments_7.db" true 11
    [TempTable.mk "dockets_detail"
      "CREATE TABLE dockets_detail (docketId TEXT PRIMARY KEY)"
      [Row.mk "EPA-D-1" []]]

/-- Claim C3 counterexample: the first valid OutputStore lacks
`dockets_detail` while a later one has it (with a usable schema), yet
after the merge the canonical store still has no `dockets_detail`
table — the engine never consults the later store for schemas. -/
theorem schema_source_first_only_cex :
    (findTempTable cexStoreDockets "dockets_detail").isSome = true ∧
    findTempTable cexStoreHeaderOnly "dockets_detail" = none ∧
    getTable (merge_databases [cexStoreHeaderOnly, cexStoreDockets] [] TABLES_TO_MERGE).final
      "dockets_detail" = none := by
  refine ⟨by decide, by decide, ?_⟩
  rw [merge_databases_eq_of_find [cexStoreHeaderOnly, cexStoreDockets] cexStoreHeaderOnly []
    TABLES_TO_MERGE (by decide)]
  exact getTable_mergeAllTables_none "dockets_detail" TABLES_TO_MERGE _ _
    (applySchemaPhase_none cexStoreHeaderOnly "dockets_detail" TABLES_TO_MERGE [] (by decide)
      rfl)

/-- Claim C9 (amended): after the data pass the Merge Engine deletes
every OutputStore file that exists — regardless of whether anything was
merged from it (an existing-but-empty store is skipped by the merge yet
still deleted) — and only when the whole merge aborts for lack of any
valid schema source are all OutputStores left in place, with the
canonical store untouched. -/
theorem cleanup_deletes_every_existing (files : List TempDB) (final0 : FinalDB)
    (ts : List String) :
    ((files.find? isValidTemp).isSome →
      (merge_databases files final0 ts).deleted
        = (files.filter (fun f => !(f.path == "") && f.present)).map (fun f => f.path)) ∧
    (files.find? isValidTemp = none →
      (merge_databases files final0 ts).deleted = [] ∧
      (merge_databases files final0 ts).final = final0 ∧
      (merge_databases files final0 ts).aborted = true) := by
  constructor
  · intro h
    cases hf : files.find? isValidTemp with
    | none => rw [hf] at h; exact absurd h (by simp)
    | some fv => rw [merge_databases_eq_of_find files fv final0 ts hf]
  · intro h
    rw [merge_databases_eq_abort files final0 ts h]
    exact ⟨rfl, rfl, rfl⟩

/-- An OutputStore file that exists but is empty: the merge skips it
entirely (nothing is merged from it), yet the cleanup deletes it. -/
def cexStoreEmptyFile : TempDB :=
  TempDB.mk "data/temp_dbs/temp_worker_comments_8.db" true 0 []

/-- A normal valid store alongside it. -/
def cexStoreFullFile : TempDB :=
  TempDB.mk "data/temp_dbs/temp_worker_comments_9.db" true 20
    [TempTable.mk "comments_detail"
      "CREATE TABLE comments_detail (commentId TEXT PRIMARY KEY)"
      [Row.mk "EPA-C-42" []]]

/-- Claim C9 counterexample: the empty store is not valid, so the merge
never reads a row from it — it is not "successfully merged" — but the
cleanup loop checks only `os.path.exists` and deletes it anyway, so the
deleted set is not exactly the successfully merged stores. -/
theorem cleanup_deletes_every_existing_cex :
    isValidTemp cexStoreEmptyFile = false ∧
    (merge_databases [cexStoreEmptyFile, cexStoreFullFile] [] TABLES_TO_MERGE).deleted
      = ["data/temp_dbs/temp_worker_comments_8.db",
         "data/temp_dbs/temp_worker_comments_9.db"] ∧
    (merge_databases [cexStoreEmptyFile, cexStoreFullFile] [] TABLES_TO_MERGE).aborted
      = false := by
  refine ⟨by decide, ?_, ?_⟩
  · rw [merge_databases_eq_of_find [cexStoreEmptyFile, cexStoreFullFile] cexStoreFullFile []
      TABLES_TO_MERGE (by decide)]
    decide
  · rw [merge_databases_eq_of_find [cexStoreEmptyFile, cexStoreFullFile] cexStoreFullFile []
      TABLES_TO_MERGE (by decide)]

theorem cleanup_deletes_every_existing_witness :
    ([storeA, storeB].find? isValidTemp).isSome ∧
    (merge_databases [storeA, storeB] [] TABLES_TO_MERGE).deleted
      = ([storeA, storeB].filter (fun f => !(f.path == "") && f.present)).map
          (fun f => f.path) :=
  ⟨by decide, (cleanup_deletes_every_existing [storeA, storeB] [] TABLES_TO_MERGE).1
    (by decide)⟩

/-! ### Embedding of the API-key queue discipline
(src/concurrent_downloader.py, lines 183, 222-223, 245-248)

`run_concurrent_downloading_main` fills an `asyncio.Queue` with the API
keys; each worker task does `api_key = await api_key_queue.get()` before
its try block and `await api_key_queue.put(api_key)` in `finally`, so
the key is returned on both the normal-return path and the
exception path.  This is modelled by a transition system over the queue
contents plus each worker's status; `asyncio.Queue.get` hands the head
of the queue to exactly one task. -/

/-- What one worker task currently does with a credential. -/
inductive WStatus where
  | notStarted
  | holding (key : String)
  | finished
deriving DecidableEq

/-- Queue contents plus each worker task's status. -/
structure PoolState where
  queue : List String
  workers : List WStatus
deriving DecidableEq

/-- The credentials currently checked out by tasks, one entry per
holding task. -/
def heldKeys (ws : List WStatus) : List String :=
  ws.filterMap (fun w => match w with
    | WStatus.holding k => some k
    | _ => none)

/-- All keys queued, all tasks spawned, none started. -/
def initState (keys : List String) (n : Nat) : PoolState :=
  { queue := keys, workers := List.replicate n WStatus.notStarted }

/-- One scheduler step: a task acquires the queue head (line 183), or a
task finishes — normally or through the exception handler — and its
`finally` returns the key (lines 222-223). -/
inductive PoolStep : PoolState → PoolState → Prop where
  | acquire (s : PoolState) (i : Nat) (k : String) (restQ : List String) :
      s.workers.get? i = some WStatus.notStarted → s.queue = k :: restQ →
      PoolStep s { queue := restQ, workers := s.workers.set i (WStatus.holding k) }
  | releaseReturn (s : PoolState) (i : Nat) (k : String) :
      s.workers.get? i = some (WStatus.holding k) →
      PoolStep s { queue := s.queue ++ [k], workers := s.workers.set i WStatus.finished }
  | releaseError (s : PoolState) (i : Nat) (k : String) :
      s.workers.get? i = some (WStatus.holding k) →
      PoolStep s { queue := s.queue ++ [k], workers := s.workers.set i WStatus.finished }

/-- States reachable by any interleaving of worker steps. -/
inductive PoolReachable (keys : List String) (n : Nat) : PoolState → Prop where
  | init : PoolReachable keys n (initState keys n)
  | step (s t : PoolState) : PoolReachable keys n s → PoolStep s t →
      PoolReachable keys n t

theorem heldKeys_replicate (n : Nat) :
    heldKeys (List.replicate n WStatus.notStarted) = [] := by
  induction n with
  | zero => rfl
  | succ m ih =>
    rw [List.replicate_succ]
    simp only [heldKeys, List.filterMap_cons]
    exact ih

theorem heldKeys_set_holding :
    ∀ (ws : List WStatus) (i : Nat) (k : String), ws.get? i = some WStatus.notStarted →
      (heldKeys (ws.set i (WStatus.holding k)) : Multiset String)
        = k ::ₘ (heldKeys ws : Multiset String) := by
  intro ws
  induction ws with
  | nil => intro i k h; simp at h
  | cons w rest ih =>
    intro i k h
    cases i with
    | zero =>
      have hw : w = WStatus.notStarted := by simpa using h
      subst hw
      simp [heldKeys, List.filterMap_cons]
    | succ j =>
      rw [List.get?_cons_succ] at h
      show (heldKeys (w :: rest.set j (WStatus.holding k)) : Multiset String) = _
      cases w with
      | notStarted =>
        simp only [heldKeys, List.filterMap_cons]
        exact ih j k h
      | finished =>
        simp only [heldKeys, List.filterMap_cons]
        exact ih j k h
      | holding k2 =>
        simp only [heldKeys, List.filterMap_cons]
        rw [← Multiset.cons_coe, ← Multiset.cons_coe]
        rw [show ((List.filterMap (fun w => match w with
          | WStatus.holding k => some k
          | _ => none) (rest.set j (WStatus.holding k)) : List String) : Multiset String)
          = k ::ₘ (List.filterMap (fun w => match w with
          | WStatus.holding k => some k
          | _ => none) rest : Multiset String) from ih j k h]
        exact Multiset.cons_swap k2 k _

theorem heldKeys_set_finished :
    ∀ (ws : List WStatus) (i : Nat) (k : String), ws.get? i = some (WStatus.holding k) →
      (heldKeys ws : Multiset String)
        = k ::ₘ (heldKeys (ws.set i WStatus.finished) : Multiset String) := by
  intro ws
  induction ws with
  | nil => intro i k h; simp at h
  | cons w rest ih =>
    intro i k h
    cases i with
    | zero =>
      have hw : w = WStatus.holding k := by simpa using h
      subst hw
      simp [heldKeys, List.filterMap_cons]
    | succ j =>
      rw [List.get?_cons_succ] at h
      show (heldKeys (w :: rest) : Multiset String)
        = k ::ₘ (heldKeys (w :: rest.set j WStatus.finished) : Multiset String)
      cases w with
      | notStarted =>
        simp only [heldKeys, List.filterMap_cons]
        exact ih j k h
      | finished =>
        simp only [heldKeys, List.filterMap_cons]
        exact ih j k h
      | holding k2 =>
        simp only [heldKeys, List.filterMap_cons]
        rw [← Multiset.cons_coe, ← Multiset.cons_coe]
        rw [show ((List.filterMap (fun w => match w with
          | WStatus.holding k => some k
          | _ => none) rest : List String) : Multiset String)
          = k ::ₘ (List.filterMap (fun w => match w with
          | WStatus.holding k => some k
          | _ => none) (rest.set j WStatus.finished) : Multiset String) from ih j k h]
        exact Multiset.cons_swap k2 k _

theorem pool_multiset_inv (keys : List String) (n : Nat) :
    ∀ (s : PoolState), PoolReachable keys n s →
      (s.queue : Multiset String) + (heldKeys s.workers : Multiset String)
        = (keys : Multiset String) := by
  intro s h
  induction h with
  | init =>
    show (keys : Multiset String)
        + (heldKeys (List.replicate n WStatus.notStarted) : Multiset String)
      = (keys : Multiset String)
    rw [heldKeys_replicate]
    simp
  | step s t hs hstep ih =>
    cases hstep with
    | acquire i k restQ hw hq =>
      show (restQ : Multiset String)
          + (heldKeys (s.workers.set i (WStatus.holding k)) : Multiset String)
        = (keys : Multiset String)
      rw [heldKeys_set_holding s.workers i k hw]
      rw [hq] at ih
      rw [← ih, ← Multiset.cons_coe]
      rw [Multiset.add_cons, Multiset.cons_add]
    | releaseReturn i k hw =>
      show ((s.queue ++ [k] : List String) : Multiset String)
          + (heldKeys (s.workers.set i WStatus.finished) : Multiset String)
        = (keys : Multiset String)
      rw [← ih, heldKeys_set_finished s.workers i k hw, ← Multiset.coe_add, add_assoc]
      congr 1
    | releaseError i k hw =>
      show ((s.queue ++ [k] : List String) : Multiset String)
          + (heldKeys (s.workers.set i WStatus.finished) : Multiset String)
        = (keys : Multiset String)
      rw [← ih, heldKeys_set_finished s.workers i k hw, ← Multiset.coe_add, add_assoc]
      congr 1

/-- Claim C4: in every reachable interleaving of worker tasks, the
multiset of credentials in the queue plus those checked out equals the
configured key list (so their count sums to the configured pool size at
every instant), and — when the configured keys are distinct — no
credential is held by two tasks simultaneously (each key is checked out
at most once).  The release transition exists for both the normal and
the error exit of a task, mirroring the `finally` block, so the
invariant survives worker-task exits caused by unexpected errors. -/
theorem credential_pool_invariant (keys : List String) (n : Nat) (s : PoolState)
    (h : PoolReachable keys n s) :
    (s.queue : Multiset String) + (heldKeys s.workers : Multiset String)
      = (keys : Multiset String) ∧
    s.queue.length + (heldKeys s.workers).length = keys.length ∧
    (keys.Nodup → ∀ k, (heldKeys s.workers).count k ≤ 1) := by
  have hinv := pool_multiset_inv keys n s h
  refine ⟨hinv, ?_, ?_⟩
  · have hc := congrArg Multiset.card hinv
    simpa using hc
  · intro hnd k
    have hcount := congrArg (Multiset.count k) hinv
    simp only [Multiset.count_add, Multiset.coe_count] at hcount
    have hk : keys.count k ≤ 1 := List.nodup_iff_count_le_one.mp hnd k
    omega

theorem credential_pool_invariant_witness :
    ((["K2"] : List String) : Multiset String)
        + (heldKeys [WStatus.holding "K1", WStatus.notStarted] : Multiset String)
      = ((["K1", "K2"] : List String) : Multiset String) ∧
    (["K2"] : List String).length
        + (heldKeys [WStatus.holding "K1", WStatus.notStarted]).length
      = (["K1", "K2"] : List String).length ∧
    ((["K1", "K2"] : List String).Nodup →
      ∀ k, (heldKeys [WStatus.holding "K1", WStatus.notStarted]).count k ≤ 1) := by
  have hstep : PoolStep (initState ["K1", "K2"] 2)
      { queue := ["K2"], workers := [WStatus.holding "K1", WStatus.notStarted] } :=
    PoolStep.acquire (initState ["K1", "K2"] 2) 0 "K1" ["K2"] rfl rfl
  exact credential_pool_invariant ["K1", "K2"] 2
    { queue := ["K2"], workers := [WStatus.holding "K1", WStatus.notStarted] }
    (PoolReachable.step _ _ PoolReachable.init hstep)

end PPER
